import Mathlib

/-!
Verification of the memcached association (hash table) module `assoc.c`.

The table state is the module-level global state of `assoc.c`:
`hashpower`, `primary_hashtable`, `old_hashtable`, `expanding`,
`expand_bucket`.  Bucket arrays are lists of chains; a chain is a list of
items (the C singly-linked `h_next` chain, head first).  A pointer into a
chain is represented by the suffix of the chain starting at that item.
Machine integers are modelled as `Nat` (all values involved are
non-negative and no C arithmetic here overflows: bucket indices are
results of `&` with a mask), except `atoi` which returns `Int`.
-/

namespace Assoc

/-- A cache entry as seen by `assoc.c`: the module reads only the key
bytes (`key`, covering both `ITEM_key` and `nkey`: list equality is
length equality plus byte equality) and relinks entries via `h_next`
(represented positionally by chain membership).  `tag` stands for the
rest of the item (payload identity), untouched by this module. -/
structure Item where
  key : List Nat
  tag : Nat
deriving DecidableEq, Repr

/-- The C macro `#define hashsize(n) ((uint64_t)1<<(n))`. -/
def hashsize (n : Nat) : Nat := 2 ^ n

/-- The C macro `#define hashmask(n) (hashsize(n)-1)`. -/
def hashmask (n : Nat) : Nat := hashsize n - 1

/-- A bucket's chain: the C singly linked list threaded through `h_next`,
head of the bucket first. -/
abbrev Chain := List Item

/-- The module-level mutable state of `assoc.c`:
`hashpower`, `primary_hashtable`, `old_hashtable` (a null pointer is
`none`), `expanding`, `expand_bucket`. -/
structure AssocState where
  hashpower : Nat
  primary_hashtable : List Chain
  old_hashtable : Option (List Chain)
  expanding : Bool
  expand_bucket : Nat
deriving Repr

/-- Dereference `old_hashtable` (the C code only does so while it is
non-null). -/
def oldTab (s : AssocState) : List Chain := s.old_hashtable.getD []

/-- The C function `assoc_init`: allocate `hashsize(hashpower)` zeroed bucket slots
(`calloc`), with `hashpower` either the caller's value or the compiled-in
default.  Allocation failure exits the process, so the returned state is
the success case. -/
def assoc_init (hashtable_init : Nat) (default_power : Nat) : AssocState :=
  let hp := if hashtable_init ≠ 0 then hashtable_init else default_power
  { hashpower := hp
    primary_hashtable := List.replicate (hashsize hp) []
    old_hashtable := none
    expanding := false
    expand_bucket := 0 }

/-- The `while (it) { ... it = it->h_next; }` scan of `assoc_find`:
first item whose key length and bytes match. -/
def chainFind (key : List Nat) : Chain → Option Item
  | [] => none
  | it :: rest => if it.key = key then some it else chainFind key rest

/-- The C function `assoc_find(key, nkey, hv)`. -/
def assoc_find (key : List Nat) (hv : Nat) (s : AssocState) : Option Item :=
  let it :=
    if s.expanding ∧ s.expand_bucket ≤ hv &&& hashmask (s.hashpower - 1) then
      (oldTab s).getD (hv &&& hashmask (s.hashpower - 1)) []
    else
      s.primary_hashtable.getD (hv &&& hashmask s.hashpower) []
  chainFind key it

/-- The C function `assoc_insert(it, hv)`: head-push onto the addressed bucket
(`it->h_next = bucket head; bucket head = it`).  The C function always
returns 1, so only the state is modelled. -/
def assoc_insert (it : Item) (hv : Nat) (s : AssocState) : AssocState :=
  if s.expanding ∧ s.expand_bucket ≤ hv &&& hashmask (s.hashpower - 1) then
    let ob := hv &&& hashmask (s.hashpower - 1)
    let t := (oldTab s).set ob (it :: (oldTab s).getD ob [])
    { s with old_hashtable := some t }
  else
    let b := hv &&& hashmask s.hashpower
    let t := s.primary_hashtable.set b (it :: s.primary_hashtable.getD b [])
    { s with primary_hashtable := t }

/-- The splice made of `_hashitem_before` plus the body of `assoc_delete`:
walk the chain to the first key match, replace it by its `h_next`
(`*before = nxt`).  `none` is the not-found case, where `assoc_delete`
instead hits `assert(*before != 0)`. -/
def chainDelete (key : List Nat) : Chain → Option Chain
  | [] => none
  | it :: rest =>
    if it.key = key then some rest
    else (chainDelete key rest).map (fun c => it :: c)

/-- The C function `assoc_delete(key, nkey, hv)`: `none` models reaching the
`assert(*before != 0)` (key absent, caller contract violation). -/
def assoc_delete (key : List Nat) (hv : Nat) (s : AssocState) : Option AssocState :=
  if s.expanding ∧ s.expand_bucket ≤ hv &&& hashmask (s.hashpower - 1) then
    let ob := hv &&& hashmask (s.hashpower - 1)
    (chainDelete key ((oldTab s).getD ob [])).map
      (fun c => { s with old_hashtable := some ((oldTab s).set ob c) })
  else
    let b := hv &&& hashmask s.hashpower
    (chainDelete key (s.primary_hashtable.getD b [])).map
      (fun c => { s with primary_hashtable := s.primary_hashtable.set b c })

/-- The C function `assoc_expand`: `old_hashtable = primary_hashtable;` then
`primary_hashtable = calloc(hashsize(hashpower + 1), ...)`.
`alloc_ok` is whether that `calloc` succeeds.  On success `hashpower++`,
`expanding = true`, `expand_bucket = 0`; on failure the primary pointer is
restored (`primary_hashtable = old_hashtable`) — note `old_hashtable`
itself is left aliasing the primary table. -/
def assoc_expand (alloc_ok : Bool) (s : AssocState) : AssocState :=
  if alloc_ok then
    { hashpower := s.hashpower + 1
      primary_hashtable := List.replicate (hashsize (s.hashpower + 1)) []
      old_hashtable := some s.primary_hashtable
      expanding := true
      expand_bucket := 0 }
  else
    { s with old_hashtable := some s.primary_hashtable }

/-- The C function `assoc_start_expand(curr_items)`.  `lock_free` is whether
`pthread_mutex_trylock(&maintenance_lock)` succeeds (it does whenever no
other thread holds the lock; in a sequential run it always does).
`hashpower_max` is the compiled-in `HASHPOWER_MAX` bound from
`memcached.h` (not part of this file), kept as a parameter.  The result
is the table state (unchanged) and whether
`pthread_cond_signal(&maintenance_cond)` was raised. -/
def assoc_start_expand (lock_free : Bool) (hashpower_max : Nat)
    (curr_items : Nat) (s : AssocState) : AssocState × Bool :=
  if lock_free then
    (s, decide (hashsize s.hashpower * 3 / 2 < curr_items) &&
        decide (s.hashpower < hashpower_max))
  else
    (s, false)

/-- The relink loop of one migration step in `assoc_maintenance_thread`:
`for (it = old_hashtable[expand_bucket]; it; it = next) { next = it->h_next;
bucket = hash(key) & hashmask(hashpower); push it onto primary[bucket]; }`.
`hashFn` is the external `hash()` function. -/
def relink (hashFn : List Nat → Nat) (hp : Nat) (chain : Chain)
    (tbl : List Chain) : List Chain :=
  chain.foldl
    (fun t it =>
      let b := hashFn it.key &&& hashmask hp
      t.set b (it :: t.getD b [])) tbl

/-- One migration step of `assoc_maintenance_thread` (the body executed
when `item_trylock(expand_bucket)` succeeds, which it does in a
sequential run): relink `old_hashtable[expand_bucket]` into the primary
table, clear it, `expand_bucket++`, and finish the expansion
(`expanding = false`; the C code also frees the old array but leaves the
pointer set) when `expand_bucket == hashsize(hashpower - 1)`. -/
def migrate_step (hashFn : List Nat → Nat) (s : AssocState) : AssocState :=
  let chain := (oldTab s).getD s.expand_bucket []
  let primary := relink hashFn s.hashpower chain s.primary_hashtable
  let old := (oldTab s).set s.expand_bucket []
  let eb := s.expand_bucket + 1
  if eb = hashsize (s.hashpower - 1) then
    { s with primary_hashtable := primary, old_hashtable := some old,
             expand_bucket := eb, expanding := false }
  else
    { s with primary_hashtable := primary, old_hashtable := some old,
             expand_bucket := eb }

/-- Runs `n` iterations of the migration loop
`for (ii = 0; ii < hash_bulk_move && expanding; ++ii)`. -/
def migrate (hashFn : List Nat → Nat) : Nat → AssocState → AssocState
  | 0, s => s
  | n + 1, s => if s.expanding then migrate hashFn n (migrate_step hashFn s) else s

/-- The C `struct assoc_iterator`: `bucket`, `bucket_locked`, and the `next`
pointer represented as the suffix of the current bucket's chain it points
at (`it` is only read immediately after being set, so it is returned by
`assoc_iterate` rather than stored). -/
structure AssocIterator where
  bucket : Nat
  rest : Chain
  bucket_locked : Bool
deriving DecidableEq, Repr

/-- The C function `assoc_get_iterator`: `calloc` an iterator (`alloc_ok` is whether it
succeeds); on failure return NULL before touching the maintenance lock,
on success take `maintenance_lock` and return the zeroed cursor.
`locked` is the maintenance-lock state before resp. after the call
(sequentially, `mutex_lock` acquires it). -/
def assoc_get_iterator (alloc_ok : Bool) (locked : Bool) :
    Option AssocIterator × Bool :=
  if alloc_ok then (some { bucket := 0, rest := [], bucket_locked := false }, true)
  else (none, locked)

/-- One call of `assoc_iterate(iter, &it)` against primary table `tbl`
(the maintenance lock held by the iterator blocks expansion, so only the
primary table is read).  Result: updated iterator, the value stored in
`*it`, and the returned bool. -/
def assoc_iterate (tbl : List Chain) (hp : Nat) (iter : AssocIterator) :
    AssocIterator × Option Item × Bool :=
  if iter.bucket_locked then
    match iter.rest with
    | it :: rest' =>
        ({ bucket := iter.bucket, rest := rest', bucket_locked := true }, some it, true)
    | [] =>
        ({ bucket := iter.bucket + 1, rest := [], bucket_locked := false }, none, true)
  else if iter.bucket ≠ hashsize hp then
    match tbl.getD iter.bucket [] with
    | it :: rest' =>
        ({ bucket := iter.bucket, rest := rest', bucket_locked := true }, some it, true)
    | [] =>
        ({ bucket := iter.bucket + 1, rest := [], bucket_locked := false }, none, true)
  else
    (iter, none, false)

/-- Drive `assoc_iterate` for at most `fuel` calls, collecting the items
reported through `*it`, stopping when it returns false. -/
def runIter (tbl : List Chain) (hp : Nat) : Nat → AssocIterator → List Item
  | 0, _ => []
  | fuel + 1, iter =>
    match assoc_iterate tbl hp iter with
    | (iter', some it, true) => it :: runIter tbl hp fuel iter'
    | (iter', none, true) => runIter tbl hp fuel iter'
    | (_, _, false) => []

/-- Calls of `assoc_iterate` needed to exhaust the given buckets:
one call per bucket to move past it, plus one per item. -/
def iterFuel (tbl : List Chain) : Nat :=
  (tbl.map (fun c => c.length + 1)).sum

/-- The C macro `#define DEFAULT_HASH_BULK_MOVE 1`. -/
def DEFAULT_HASH_BULK_MOVE : Int := 1

/-- C `isspace` in the "C" locale, as consumed by `atoi`. -/
def isSpaceC (c : Char) : Bool :=
  c = ' ' || c = '\t' || c = '\n' || c = '\x0b' || c = '\x0c' || c = '\r'

/-- The digit-accumulation loop of C `atoi`: consume leading decimal
digits, stop at the first non-digit. -/
def atoiDigits : List Char → Nat → Nat
  | [], acc => acc
  | c :: cs, acc =>
    if c.isDigit then atoiDigits cs (acc * 10 + (c.toNat - 48)) else acc

/-- C `atoi`: skip leading whitespace, an optional sign, then decimal
digits; 0 when no digits follow.  (Overflow is undefined behaviour in C;
the model is exact.) -/
def atoi (s : List Char) : Int :=
  match s.dropWhile isSpaceC with
  | [] => 0
  | c :: rest =>
    if c = '-' then - (atoiDigits rest 0 : Int)
    else if c = '+' then (atoiDigits rest 0 : Int)
    else (atoiDigits (c :: rest) 0 : Int)

/-- The value of `hash_bulk_move` after `start_assoc_maintenance_thread`
reads `MEMCACHED_HASH_BULK_MOVE` (`env` is `getenv`'s result):
`hash_bulk_move = atoi(env); if (hash_bulk_move == 0) hash_bulk_move =
DEFAULT_HASH_BULK_MOVE;`. -/
def hash_bulk_move_after (env : Option (List Char)) : Int :=
  match env with
  | none => DEFAULT_HASH_BULK_MOVE
  | some s =>
    let v := atoi s
    if v = 0 then DEFAULT_HASH_BULK_MOVE else v

/-- Standard decimal value of a digit string (most significant first). -/
def decimalVal (s : List Char) : Nat :=
  s.foldl (fun a c => a * 10 + (c.toNat - 48)) 0

/-- Spec §4.1 Bucket Store addressing rule, stated once: which array
(`true` = old) and which index an operation with hash `hv` consults. -/
def bucketLoc (s : AssocState) (hv : Nat) : Bool × Nat :=
  if s.expanding ∧ s.expand_bucket ≤ hv &&& hashmask (s.hashpower - 1) then
    (true, hv &&& hashmask (s.hashpower - 1))
  else
    (false, hv &&& hashmask s.hashpower)

/-- The chain the addressing rule designates. -/
def getChain (s : AssocState) (hv : Nat) : Chain :=
  match bucketLoc s hv with
  | (true, i) => (oldTab s).getD i []
  | (false, i) => s.primary_hashtable.getD i []

/-- Replace the chain the addressing rule designates, touching exactly
one array. -/
def setChain (s : AssocState) (hv : Nat) (c : Chain) : AssocState :=
  match bucketLoc s hv with
  | (true, i) => { s with old_hashtable := some ((oldTab s).set i c) }
  | (false, i) => { s with primary_hashtable := s.primary_hashtable.set i c }

/-- A foreground chain operation, as issued by the cache's request layer. -/
inductive Op where
  | ins (it : Item) (hv : Nat)
  | del (key : List Nat) (hv : Nat)
deriving Repr

/-- Apply one foreground operation (a failed delete asserts in C; the
state is returned unchanged, which is immaterial for the theorems below
since they never delete absent keys). -/
def applyOp (s : AssocState) : Op → AssocState
  | .ins it hv => assoc_insert it hv s
  | .del key hv => (assoc_delete key hv s).getD s

/-- An operation that neither deletes nor replaces key `K`. -/
def opAvoids (K : List Nat) : Op → Prop
  | .ins it _ => it.key ≠ K
  | .del key _ => key ≠ K

/-- The part of the spec's table-state invariant the code does maintain:
while `expanding`, `old_hashtable` is non-null and the old array is half
the primary array's length. -/
def lenInv (s : AssocState) : Prop :=
  s.primary_hashtable.length = hashsize s.hashpower ∧
  (s.expanding = true →
    s.old_hashtable.isSome = true ∧
    2 * (oldTab s).length = s.primary_hashtable.length)

/-- Two states that agree on every field except `old_hashtable`, which no
operation reads while `expanding` is false. -/
def AgreeExceptOld (s t : AssocState) : Prop :=
  s.hashpower = t.hashpower ∧ s.primary_hashtable = t.primary_hashtable ∧
  s.expanding = t.expanding ∧ s.expand_bucket = t.expand_bucket

/-- Well-formed array lengths: the primary array has `hashsize(hashpower)`
slots and, while expanding, the old array has `hashsize(hashpower - 1)`
slots (as allocated by `assoc_init` / `assoc_expand`). -/
def WFLen (s : AssocState) : Prop :=
  s.primary_hashtable.length = hashsize s.hashpower ∧
  (s.expanding = true → (oldTab s).length = hashsize (s.hashpower - 1))

/-- The destination bucket of an item under the hash and a mask:
`hash(ITEM_key(it), it->nkey) & hashmask(hp)`. -/
def dest (hashFn : List Nat → Nat) (hp : Nat) (it : Item) : Nat :=
  hashFn it.key &&& hashmask hp

/-- The multiset of entries stored across a bucket array. -/
def tableMS (tbl : List Chain) : Multiset Item :=
  (tbl.map (fun c => (c : Multiset Item))).sum

/-- Invariant of the states seen by the migration loop while expanding. -/
structure MigInv (hashFn : List Nat → Nat) (s : AssocState) : Prop where
  exp : s.expanding = true
  plen : s.primary_hashtable.length = hashsize s.hashpower
  olen : (oldTab s).length = hashsize (s.hashpower - 1)
  cur : s.expand_bucket < hashsize (s.hashpower - 1)
  pri_placed : ∀ j, ∀ it ∈ s.primary_hashtable.getD j [],
    dest hashFn s.hashpower it = j
  old_cleared : ∀ j < s.expand_bucket, (oldTab s).getD j [] = []

/-- State of the table after the expansion cycle has completed. -/
structure StableOut (hashFn : List Nat → Nat) (C : Multiset Item) (hp2 : Nat)
    (s : AssocState) : Prop where
  exp : s.expanding = false
  hp : s.hashpower = hp2
  plen : s.primary_hashtable.length = hashsize hp2
  placed : ∀ j, ∀ it ∈ s.primary_hashtable.getD j [], dest hashFn hp2 it = j
  ms : tableMS s.primary_hashtable = C

/-- Invariant of a stable table whose entries were inserted under their
key's hash. -/
structure StableInv (hashFn : List Nat → Nat) (s : AssocState) : Prop where
  exp : s.expanding = false
  plen : s.primary_hashtable.length = hashsize s.hashpower
  placed : ∀ j, ∀ it ∈ s.primary_hashtable.getD j [],
    dest hashFn s.hashpower it = j

/-- The scenario of spec §8 "No loss under growth": build a stable table
of initial hash power `hp` (`dp` is the compiled-in default power, unused
when `hp ≠ 0`) by inserting `items`, each under its key's hash. -/
def buildStable (hashFn : List Nat → Nat) (hp dp : Nat)
    (items : List Item) : AssocState :=
  List.foldl (fun t x => assoc_insert x (hashFn x.key) t)
    (assoc_init hp dp) items

/-- Force the trigger and run the maintenance loop to completion: one
successful `assoc_expand`, then `hashsize hp` migration steps (exactly
enough to drain the old array). -/
def fullCycle (hashFn : List Nat → Nat) (hp dp : Nat)
    (items : List Item) : AssocState :=
  migrate hashFn (hashsize hp) (assoc_expand true (buildStable hashFn hp dp items))

/-! ### General list helpers -/

theorem and_hashmask_eq_mod (hv n : Nat) : hv &&& hashmask n = hv % hashsize n := by
  simp [hashmask, hashsize, Nat.and_pow_two_sub_one_eq_mod]

theorem and_hashmask_lt (hv n : Nat) : hv &&& hashmask n < hashsize n := by
  rw [and_hashmask_eq_mod]
  exact Nat.mod_lt _ (Nat.pos_pow_of_pos n (by decide))



theorem getD_set_eq_if {α : Type} (l : List α) (i j : Nat) (a d : α) :
    (l.set i a).getD j d = if i = j ∧ i < l.length then a else l.getD j d := by
  by_cases hij : i = j
  · subst hij
    by_cases hlt : i < l.length
    · simp [List.getD_eq_getElem?_getD, List.getElem?_set_self hlt, hlt]
    · simp [hlt, List.set_eq_of_length_le (Nat.le_of_not_lt hlt)]
  · simp [List.getD_eq_getElem?_getD, List.getElem?_set_ne hij, hij]

/-! ### The three chain operations factor through the one addressing rule -/

theorem find_eq_getChain (key : List Nat) (hv : Nat) (s : AssocState) :
    assoc_find key hv s = chainFind key (getChain s hv) := by
  simp only [assoc_find, getChain, bucketLoc]
  by_cases h : s.expanding ∧ s.expand_bucket ≤ hv &&& hashmask (s.hashpower - 1) <;>
    simp [h]

theorem insert_eq_setChain (it : Item) (hv : Nat) (s : AssocState) :
    assoc_insert it hv s = setChain s hv (it :: getChain s hv) := by
  simp only [assoc_insert, setChain, getChain, bucketLoc]
  by_cases h : s.expanding ∧ s.expand_bucket ≤ hv &&& hashmask (s.hashpower - 1) <;>
    simp [h]

theorem delete_eq_setChain (key : List Nat) (hv : Nat) (s : AssocState) :
    assoc_delete key hv s =
      (chainDelete key (getChain s hv)).map (setChain s hv) := by
  by_cases h : s.expanding ∧ s.expand_bucket ≤ hv &&& hashmask (s.hashpower - 1)
  · simp only [assoc_delete, getChain, bucketLoc, if_pos h]
    cases chainDelete key ((oldTab s).getD (hv &&& hashmask (s.hashpower - 1)) []) with
    | none => rfl
    | some c => simp [setChain, bucketLoc, h]
  · simp only [assoc_delete, getChain, bucketLoc, if_neg h]
    cases chainDelete key (s.primary_hashtable.getD (hv &&& hashmask s.hashpower) []) with
    | none => rfl
    | some c => simp [setChain, bucketLoc, h]

/-- C1: for every hash value, find, insert and delete all address the
single bucket designated by the one rule `bucketLoc` — when not expanding
the primary bucket `hv & (primary_length - 1)`, and when expanding the old
bucket `hv & (old_length - 1)` if that index has not yet been migrated,
otherwise the primary bucket.  Each operation reads or rewrites exactly
that one chain in exactly one array (`getChain`/`setChain` consult one
array each), and all three use the same rule. -/
theorem find_insert_delete_use_one_addressing_rule
    (s : AssocState) (key : List Nat) (it : Item) (hv : Nat) :
    assoc_find key hv s = chainFind key (getChain s hv)
    ∧ assoc_insert it hv s = setChain s hv (it :: getChain s hv)
    ∧ assoc_delete key hv s =
        (chainDelete key (getChain s hv)).map (setChain s hv) :=
  ⟨find_eq_getChain key hv s, insert_eq_setChain it hv s,
   delete_eq_setChain key hv s⟩

/-! ### Delete splices out exactly the first match (C8) -/

theorem chainDelete_splice (key : List Nat) :
    ∀ c : Chain, (∃ x ∈ c, x.key = key) →
      ∃ c₁ m c₂, c = c₁ ++ m :: c₂ ∧ (∀ x ∈ c₁, x.key ≠ key) ∧ m.key = key ∧
        chainDelete key c = some (c₁ ++ c₂)
  | [], h => absurd h (by simp)
  | it :: rest, h => by
    by_cases hk : it.key = key
    · exact ⟨[], it, rest, by simp, by simp, hk, by simp [chainDelete, hk]⟩
    · have hr : ∃ x ∈ rest, x.key = key := by
        rcases h with ⟨x, hx, hxk⟩
        rcases List.mem_cons.mp hx with rfl | hx'
        · exact absurd hxk hk
        · exact ⟨x, hx', hxk⟩
      rcases chainDelete_splice key rest hr with ⟨c₁, m, c₂, hc, hnone, hm, hdel⟩
      exact ⟨it :: c₁, m, c₂, by simp [hc],
        by rintro x hx; rcases List.mem_cons.mp hx with rfl | hx'
           exacts [hk, hnone x hx'], hm, by simp [chainDelete, hk, hdel]⟩

/-- C8: if the key is present in the addressed chain, `assoc_delete`
never reaches its `assert(*before != 0)` not-found branch, and splices
out exactly the first matching entry: the chain decomposes as
`c₁ ++ m :: c₂` with no match in `c₁`, and the bucket is rewritten to
`c₁ ++ c₂` — the previous link now points at the removed entry's
successor and every other entry of the chain is untouched (the C code
additionally nulls the removed entry's own `h_next`, which in this model
is the removed entry no longer belonging to any chain). -/
theorem delete_splices_out_first_match (s : AssocState) (key : List Nat) (hv : Nat)
    (hpresent : ∃ x ∈ getChain s hv, x.key = key) :
    ∃ c₁ m c₂, getChain s hv = c₁ ++ m :: c₂ ∧ (∀ x ∈ c₁, x.key ≠ key) ∧
      m.key = key ∧ assoc_delete key hv s = some (setChain s hv (c₁ ++ c₂)) := by
  rcases chainDelete_splice key (getChain s hv) hpresent with
    ⟨c₁, m, c₂, hc, hnone, hm, hdel⟩
  exact ⟨c₁, m, c₂, hc, hnone, hm, by rw [delete_eq_setChain, hdel]; rfl⟩

/-- Witness for `delete_splices_out_first_match` at a concrete table:
a stable one-bucket table whose chain is `[⟨[5],0⟩, ⟨[7],1⟩]`, deleting
key `[7]`. -/
theorem delete_splices_out_first_match_witness :
    ∃ c₁ m c₂,
      getChain ⟨0, [[⟨[5], 0⟩, ⟨[7], 1⟩]], none, false, 0⟩ 0 = c₁ ++ m :: c₂ ∧
      (∀ x ∈ c₁, x.key ≠ [7]) ∧ m.key = [7] ∧
      assoc_delete [7] 0 ⟨0, [[⟨[5], 0⟩, ⟨[7], 1⟩]], none, false, 0⟩ =
        some (setChain ⟨0, [[⟨[5], 0⟩, ⟨[7], 1⟩]], none, false, 0⟩ 0 (c₁ ++ c₂)) :=
  delete_splices_out_first_match ⟨0, [[⟨[5], 0⟩, ⟨[7], 1⟩]], none, false, 0⟩ [7] 0
    (by decide)

/-! ### Iterator open (C10) -/

/-- C10: `assoc_get_iterator` returns a null cursor exactly when the
cursor allocation fails, and in that case the maintenance lock is left
untouched; when allocation succeeds, the maintenance lock is held before
the (zeroed: bucket 0, no pending chain, no bucket lock) cursor is
returned. -/
theorem get_iterator_alloc_failure_leaves_lock (locked : Bool) :
    assoc_get_iterator false locked = (none, locked)
    ∧ assoc_get_iterator true locked =
        (some { bucket := 0, rest := [], bucket_locked := false }, true)
    ∧ ∀ ok : Bool, ((assoc_get_iterator ok locked).1 = none ↔ ok = false) := by
  refine ⟨rfl, rfl, ?_⟩
  rintro (_ | _) <;> simp [assoc_get_iterator]

/-! ### Expansion trigger (C6) -/

/-- C6: when the trigger's `pthread_mutex_trylock` succeeds (always, in a
sequential run), `assoc_start_expand` changes no table state and raises
the wake signal if and only if the reported live-entry count exceeds
`primary_length * 1.5` (i.e. `2 * count > 3 * 2^hashpower`) and
`hashpower` is below `HASHPOWER_MAX`; a report not meeting the condition
raises no signal. -/
theorem start_expand_signals_iff (lock_free : Bool) (hashpower_max : Nat)
    (curr_items : Nat) (s : AssocState) (hlock : lock_free = true) :
    (assoc_start_expand lock_free hashpower_max curr_items s).1 = s
    ∧ ((assoc_start_expand lock_free hashpower_max curr_items s).2 = true ↔
        (3 * hashsize s.hashpower < 2 * curr_items ∧
         s.hashpower < hashpower_max)) := by
  subst hlock
  refine ⟨rfl, ?_⟩
  simp only [assoc_start_expand, if_pos, Bool.and_eq_true, decide_eq_true_eq]
  constructor
  · rintro ⟨h1, h2⟩
    refine ⟨?_, h2⟩
    have := (Nat.div_lt_iff_lt_mul (by decide : 0 < 2)).mp h1
    calc 3 * hashsize s.hashpower = hashsize s.hashpower * 3 := Nat.mul_comm _ _
      _ < curr_items * 2 := this
      _ = 2 * curr_items := Nat.mul_comm _ _
  · rintro ⟨h1, h2⟩
    refine ⟨?_, h2⟩
    refine (Nat.div_lt_iff_lt_mul (by decide : 0 < 2)).mpr ?_
    calc hashsize s.hashpower * 3 = 3 * hashsize s.hashpower := Nat.mul_comm _ _
      _ < 2 * curr_items := h1
      _ = curr_items * 2 := Nat.mul_comm _ _

/-- Witness for `start_expand_signals_iff`: primary length 16, 25 live
entries (25 > 24 = 16 * 1.5), hash power 4 below a max of 32: the signal
is raised and the state is untouched. -/
theorem start_expand_signals_iff_witness :
    (assoc_start_expand true 32 25 ⟨4, [], none, false, 0⟩).1 =
      ⟨4, [], none, false, 0⟩
    ∧ ((assoc_start_expand true 32 25 ⟨4, [], none, false, 0⟩).2 = true ↔
        (3 * hashsize 4 < 2 * 25 ∧ 4 < 32)) :=
  start_expand_signals_iff true 32 25 ⟨4, [], none, false, 0⟩ rfl

/-! ### Length invariant (C5) -/

theorem relink_length (hashFn : List Nat → Nat) (hp : Nat) :
    ∀ (chain : Chain) (tbl : List Chain),
      (relink hashFn hp chain tbl).length = tbl.length
  | [], _ => rfl
  | it :: rest, tbl => by
    have : relink hashFn hp (it :: rest) tbl =
        relink hashFn hp rest
          ((tbl.set (hashFn it.key &&& hashmask hp)
            (it :: tbl.getD (hashFn it.key &&& hashmask hp) []))) := rfl
    rw [this, relink_length hashFn hp rest, List.length_set]

/-- C5 counterexample: the claim fails on the code.  Starting from a
stable state that satisfies "old non-null iff expanding" (old is null),
a failed expansion attempt (`assoc_expand` with the `calloc` failing)
leaves `expanding = false` but `old_hashtable` non-null: the C code
restores `primary_hashtable = old_hashtable` without ever resetting
`old_hashtable`, which keeps aliasing the primary array.  (The same
happens at expansion completion: `free(old_hashtable)` does not null the
pointer.) -/
theorem old_nonnull_iff_expanding_fails :
    ((⟨0, [[]], none, false, 0⟩ : AssocState).old_hashtable = none
      ∧ (⟨0, [[]], none, false, 0⟩ : AssocState).expanding = false)
    ∧ (assoc_expand false ⟨0, [[]], none, false, 0⟩).expanding = false
    ∧ (assoc_expand false ⟨0, [[]], none, false, 0⟩).old_hashtable ≠ none := by
  refine ⟨⟨rfl, rfl⟩, rfl, ?_⟩
  simp [assoc_expand]

/-- C5 amended: what every operation does preserve is the one-sided
invariant `lenInv`: *if* `expanding` is true then the old array reference
is non-null and the old array's length is exactly half the primary
array's length.  (The converse direction of the claim is false: after a
failed expansion attempt and after expansion completion the code leaves
`old_hashtable` non-null while `expanding` is false — see
`old_nonnull_iff_expanding_fails`.)  Covered operations: expansion start,
both successful (`ok = true`) and failed (`ok = false`); each migration
step including the completing one (`migrate_step`); and the foreground
insert/delete operations. -/
theorem lenInv_preserved (s : AssocState) (hashFn : List Nat → Nat)
    (ok : Bool) (op : Op) (hinv : lenInv s) :
    (s.expanding = false → lenInv (assoc_expand ok s))
    ∧ lenInv (migrate_step hashFn s)
    ∧ lenInv (applyOp s op) := by
  obtain ⟨hplen, hexp⟩ := hinv
  refine ⟨fun hst => ?_, ?_, ?_⟩
  · cases ok with
    | false =>
      refine ⟨hplen, fun h => ?_⟩
      exact absurd (by simpa [assoc_expand] using h) (by simp [hst])
    | true =>
      refine ⟨by simp [assoc_expand, hashsize], fun _ => ?_⟩
      refine ⟨by simp [assoc_expand], ?_⟩
      simp [assoc_expand, oldTab, hplen, hashsize, Nat.pow_succ, Nat.mul_comm]
  · unfold migrate_step
    by_cases hdone : s.expand_bucket + 1 = hashsize (s.hashpower - 1)
    · simp only [if_pos hdone]
      exact ⟨by simpa [relink_length] using hplen, by simp⟩
    · simp only [if_neg hdone]
      refine ⟨by simpa [relink_length] using hplen, fun h => ?_⟩
      rcases hexp h with ⟨_, h2⟩
      exact ⟨by simp [oldTab], by simpa [oldTab, relink_length] using h2⟩
  · cases op with
    | ins it hv =>
      simp only [applyOp]
      unfold assoc_insert
      by_cases h : s.expanding = true ∧
          s.expand_bucket ≤ hv &&& hashmask (s.hashpower - 1)
      · simp only [if_pos h]
        refine ⟨hplen, fun he => ?_⟩
        rcases hexp he with ⟨_, h2⟩
        exact ⟨by simp [oldTab], by simpa [oldTab] using h2⟩
      · simp only [if_neg h]
        refine ⟨by simpa using hplen, fun he => ?_⟩
        rcases hexp he with ⟨h1, h2⟩
        exact ⟨h1, by simpa [oldTab] using h2⟩
    | del key hv =>
      simp only [applyOp]
      rw [delete_eq_setChain]
      cases hd : chainDelete key (getChain s hv) with
      | none => exact ⟨hplen, hexp⟩
      | some c =>
        simp only [Option.map_some', Option.getD_some, setChain]
        cases hloc : bucketLoc s hv with
        | mk b i =>
          cases b with
          | true =>
            refine ⟨hplen, fun he => ?_⟩
            rcases hexp he with ⟨_, h2⟩
            exact ⟨by simp [oldTab], by simpa [oldTab] using h2⟩
          | false =>
            refine ⟨by simpa using hplen, fun he => ?_⟩
            rcases hexp he with ⟨h1, h2⟩
            exact ⟨h1, by simpa [oldTab] using h2⟩

/-- Witness for `lenInv_preserved`: a stable two-bucket table (hash
power 1), checking the invariant across a successful expansion start, a
migration step and an insert. -/
theorem lenInv_preserved_witness :
    ((⟨1, [[], []], none, false, 0⟩ : AssocState).expanding = false →
      lenInv (assoc_expand true ⟨1, [[], []], none, false, 0⟩))
    ∧ lenInv (migrate_step (fun _ => 0) ⟨1, [[], []], none, false, 0⟩)
    ∧ lenInv (applyOp ⟨1, [[], []], none, false, 0⟩ (.ins ⟨[3], 0⟩ 1)) :=
  lenInv_preserved ⟨1, [[], []], none, false, 0⟩ (fun _ => 0)
    true (.ins ⟨[3], 0⟩ 1)
    (by constructor
        · simp [hashsize]
        · intro h; exact absurd h (by simp))

/-! ### Environment-variable batch size (C9) -/

theorem atoiDigits_eq_foldl (s : List Char) (acc : Nat)
    (h : ∀ c ∈ s, c.isDigit) :
    atoiDigits s acc = s.foldl (fun a c => a * 10 + (c.toNat - 48)) acc := by
  induction s generalizing acc with
  | nil => rfl
  | cons c cs ih =>
    have hc : c.isDigit := h c (by simp)
    simp only [atoiDigits, hc, if_pos, List.foldl_cons]
    exact ih _ (fun x hx => h x (by simp [hx]))

theorem isDigit_not_space {c : Char} (h : c.isDigit = true) :
    isSpaceC c = false := by
  have h1 : ¬ (c = ' ') := by intro hc; rw [hc] at h; exact absurd h (by decide)
  have h2 : ¬ (c = '\t') := by intro hc; rw [hc] at h; exact absurd h (by decide)
  have h3 : ¬ (c = '\n') := by intro hc; rw [hc] at h; exact absurd h (by decide)
  have h4 : ¬ (c = '\x0b') := by intro hc; rw [hc] at h; exact absurd h (by decide)
  have h5 : ¬ (c = '\x0c') := by intro hc; rw [hc] at h; exact absurd h (by decide)
  have h6 : ¬ (c = '\r') := by intro hc; rw [hc] at h; exact absurd h (by decide)
  simp [isSpaceC, h1, h2, h3, h4, h5, h6]

theorem atoi_all_digits (s : List Char) (hne : s ≠ [])
    (h : ∀ c ∈ s, c.isDigit) : atoi s = (decimalVal s : Int) := by
  cases s with
  | nil => exact absurd rfl hne
  | cons c cs =>
    have hc : c.isDigit := h c (by simp)
    have hminus : ¬ (c = '-') := by
      intro hcm; subst hcm; exact absurd hc (by decide)
    have hplus : ¬ (c = '+') := by
      intro hcm; subst hcm; exact absurd hc (by decide)
    simp only [atoi, List.dropWhile_cons, isDigit_not_space hc,
      Bool.false_eq_true, if_false, if_neg hminus, if_neg hplus]
    rw [atoiDigits_eq_foldl _ _ h]
    rfl

/-- C9 counterexample: the claim fails on the code for negative values.
`MEMCACHED_HASH_BULK_MOVE="-1"` is not a valid positive value, yet the
resulting batch size is `-1`, not the default `1`: the code only guards
`hash_bulk_move == 0`, so negative `atoi` results pass through (and stop
the migration loop `ii < hash_bulk_move` from ever iterating). -/
theorem bulk_move_negative_env_kept :
    hash_bulk_move_after (some ['-', '1']) = -1 ∧ (-1 : Int) ≠ 1 := by
  exact ⟨rfl, by decide⟩

/-- C9 amended: the batch size after startup is `atoi(env)` whenever that
is non-zero — including negative values — and the default 1 exactly when
`atoi(env)` is 0 (unset variable, unparsable string, or literal zero).
In particular a string of decimal digits with positive value sets the
batch size to that value (`atoi` agrees with the decimal reading). -/
theorem bulk_move_env_parsing (s : List Char) :
    (atoi s = 0 → hash_bulk_move_after (some s) = 1)
    ∧ (atoi s ≠ 0 → hash_bulk_move_after (some s) = atoi s)
    ∧ hash_bulk_move_after none = 1
    ∧ ((s ≠ [] ∧ ∀ c ∈ s, c.isDigit) → atoi s = (decimalVal s : Int)) := by
  refine ⟨fun h => ?_, fun h => ?_, rfl, fun ⟨h1, h2⟩ => atoi_all_digits s h1 h2⟩
  · simp [hash_bulk_move_after, h, DEFAULT_HASH_BULK_MOVE]
  · simp [hash_bulk_move_after, h]

/-- Witness for `bulk_move_env_parsing`: the digit string "42" parses to
42 and overrides the batch size. -/
theorem bulk_move_env_parsing_witness :
    hash_bulk_move_after (some ['4', '2']) = atoi ['4', '2']
    ∧ atoi ['4', '2'] = (decimalVal ['4', '2'] : Int) := by
  refine ⟨(bulk_move_env_parsing ['4', '2']).2.1 (by decide), ?_⟩
  exact (bulk_move_env_parsing ['4', '2']).2.2.2 ⟨by decide, by decide⟩

/-! ### Failed expansion is an atomic abort (C4) -/

theorem find_of_agreeExceptOld {s t : AssocState} (h : AgreeExceptOld s t)
    (hst : s.expanding = false) (key : List Nat) (hv : Nat) :
    assoc_find key hv s = assoc_find key hv t := by
  obtain ⟨h1, h2, h3, _⟩ := h
  have ht : t.expanding = false := h3 ▸ hst
  simp [assoc_find, hst, ht, h1, h2]

theorem bucketLoc_not_expanding {s : AssocState} (hst : s.expanding = false)
    (hv : Nat) : bucketLoc s hv = (false, hv &&& hashmask s.hashpower) := by
  simp [bucketLoc, hst]

theorem getChain_not_expanding {s : AssocState} (hst : s.expanding = false)
    (hv : Nat) :
    getChain s hv = s.primary_hashtable.getD (hv &&& hashmask s.hashpower) [] := by
  rw [getChain, bucketLoc_not_expanding hst]

theorem setChain_not_expanding {s : AssocState} (hst : s.expanding = false)
    (hv : Nat) (c : Chain) :
    setChain s hv c =
      { s with primary_hashtable :=
          s.primary_hashtable.set (hv &&& hashmask s.hashpower) c } := by
  rw [setChain, bucketLoc_not_expanding hst]

theorem applyOp_agreeExceptOld {s t : AssocState} (h : AgreeExceptOld s t)
    (hst : s.expanding = false) (op : Op) :
    AgreeExceptOld (applyOp s op) (applyOp t op)
    ∧ (applyOp s op).expanding = false := by
  obtain ⟨h1, h2, h3, h4⟩ := h
  have ht : t.expanding = false := h3 ▸ hst
  cases op with
  | ins it hv =>
    simp only [applyOp]
    rw [insert_eq_setChain, insert_eq_setChain, setChain_not_expanding hst,
        setChain_not_expanding ht, getChain_not_expanding hst,
        getChain_not_expanding ht]
    exact ⟨⟨h1, by simp [h1, h2], h3, h4⟩, hst⟩
  | del key hv =>
    simp only [applyOp]
    rw [delete_eq_setChain, delete_eq_setChain, getChain_not_expanding hst,
        getChain_not_expanding ht, h1, h2]
    cases chainDelete key
        (t.primary_hashtable.getD (hv &&& hashmask t.hashpower) []) with
    | none => exact ⟨⟨h1, h2, h3, h4⟩, hst⟩
    | some c =>
      refine ⟨⟨?_, ?_, ?_, ?_⟩, ?_⟩ <;>
        simp [setChain_not_expanding hst, setChain_not_expanding ht,
          h1, h2, h3, h4, hst, ht]

theorem foldOps_agreeExceptOld {s t : AssocState} (h : AgreeExceptOld s t)
    (hst : s.expanding = false) (ops : List Op) :
    AgreeExceptOld (List.foldl applyOp s ops) (List.foldl applyOp t ops)
    ∧ (List.foldl applyOp s ops).expanding = false := by
  induction ops generalizing s t with
  | nil => exact ⟨h, hst⟩
  | cons op rest ih =>
    rcases applyOp_agreeExceptOld h hst op with ⟨h', hst'⟩
    simpa using ih h' hst'

/-- C4: if the `calloc` of the doubled primary array fails during the
Stable-to-Expanding transition, the transition aborts atomically:
`hashpower`, the `expanding` flag and the primary array (same list, hence
same identity and contents) are unchanged, and every subsequent sequence
of find/insert/delete operations behaves exactly as if the attempt had
never happened (the only residue is the unread stale `old_hashtable`
alias). -/
theorem failed_expand_atomic_abort (s : AssocState) (hstable : s.expanding = false) :
    (assoc_expand false s).hashpower = s.hashpower
    ∧ (assoc_expand false s).expanding = false
    ∧ (assoc_expand false s).primary_hashtable = s.primary_hashtable
    ∧ ∀ (ops : List Op) (key : List Nat) (hv : Nat),
        assoc_find key hv (List.foldl applyOp (assoc_expand false s) ops) =
          assoc_find key hv (List.foldl applyOp s ops)
        ∧ (List.foldl applyOp (assoc_expand false s) ops).primary_hashtable =
            (List.foldl applyOp s ops).primary_hashtable := by
  have hagree : AgreeExceptOld (assoc_expand false s) s := by
    refine ⟨?_, ?_, ?_, ?_⟩ <;> simp [assoc_expand]
  have hexp : (assoc_expand false s).expanding = false := by
    simpa [assoc_expand] using hstable
  refine ⟨by simp [assoc_expand], hexp, by simp [assoc_expand], ?_⟩
  intro ops key hv
  rcases foldOps_agreeExceptOld hagree hexp ops with ⟨hfold, hfexp⟩
  exact ⟨find_of_agreeExceptOld hfold hfexp key hv, hfold.2.1⟩

/-- Witness for `failed_expand_atomic_abort`: hash power 1, two buckets
holding one item, a failed expansion, then an insert followed by a find. -/
theorem failed_expand_atomic_abort_witness :
    (assoc_expand false ⟨1, [[⟨[5], 0⟩], []], none, false, 0⟩).hashpower = 1
    ∧ (assoc_expand false ⟨1, [[⟨[5], 0⟩], []], none, false, 0⟩).expanding = false
    ∧ (assoc_expand false ⟨1, [[⟨[5], 0⟩], []], none, false, 0⟩).primary_hashtable =
        [[⟨[5], 0⟩], []]
    ∧ (assoc_find [5] 0
        (List.foldl applyOp (assoc_expand false ⟨1, [[⟨[5], 0⟩], []], none, false, 0⟩)
          [.ins ⟨[6], 1⟩ 1]) =
       assoc_find [5] 0 (List.foldl applyOp ⟨1, [[⟨[5], 0⟩], []], none, false, 0⟩
          [.ins ⟨[6], 1⟩ 1])) := by
  have h := failed_expand_atomic_abort ⟨1, [[⟨[5], 0⟩], []], none, false, 0⟩ rfl
  exact ⟨h.1, h.2.1, h.2.2.1, (h.2.2.2 [.ins ⟨[6], 1⟩ 1] [5] 0).1⟩

/-! ### Round-trip: insert, find, delete (C3) -/

theorem bucketLoc_spec (s : AssocState) (hv : Nat) :
    (bucketLoc s hv = (true, hv &&& hashmask (s.hashpower - 1))
      ∧ s.expanding = true)
    ∨ bucketLoc s hv = (false, hv &&& hashmask s.hashpower) := by
  unfold bucketLoc
  split
  · next h => exact Or.inl ⟨rfl, h.1⟩
  · exact Or.inr rfl

theorem bucketLoc_setChain (s : AssocState) (hv' hv : Nat) (c : Chain) :
    bucketLoc (setChain s hv' c) hv = bucketLoc s hv := by
  unfold setChain
  cases hloc : bucketLoc s hv' with
  | mk b i => cases b <;> rfl

theorem getChain_setChain_cases (s : AssocState) (hv hv' : Nat) (c : Chain) :
    (getChain (setChain s hv' c) hv = c ∧ getChain s hv = getChain s hv')
    ∨ getChain (setChain s hv' c) hv = getChain s hv := by
  have hb := bucketLoc_setChain s hv' hv c
  unfold getChain
  rw [hb]
  cases hloc : bucketLoc s hv with
  | mk b i =>
    unfold setChain
    cases hloc' : bucketLoc s hv' with
    | mk b' i' =>
      cases b' <;> cases b <;> simp only [oldTab, Option.getD_some]
      · -- primary / primary
        rw [getD_set_eq_if]
        by_cases hc : i' = i ∧ i' < s.primary_hashtable.length
        · exact Or.inl ⟨by rw [if_pos hc], by rw [hc.1]⟩
        · exact Or.inr (by rw [if_neg hc])
      · -- set primary, read old: untouched
        exact Or.inr trivial
      · -- set old, read primary: untouched
        exact Or.inr trivial
      · -- old / old
        rw [getD_set_eq_if]
        by_cases hc : i' = i ∧ i' < (s.old_hashtable.getD []).length
        · exact Or.inl ⟨by rw [if_pos hc], by rw [hc.1]⟩
        · exact Or.inr (by rw [if_neg hc])

theorem getChain_setChain_self (s : AssocState) (hv : Nat) (c : Chain)
    (hwf : WFLen s) : getChain (setChain s hv c) hv = c := by
  have hb := bucketLoc_setChain s hv hv c
  unfold getChain
  rw [hb]
  rcases bucketLoc_spec s hv with ⟨hloc, hexp⟩ | hloc <;> rw [hloc] <;>
    unfold setChain <;> rw [hloc] <;> simp only [oldTab, Option.getD_some]
  · have holen : (s.old_hashtable.getD []).length = hashsize (s.hashpower - 1) :=
      hwf.2 hexp
    rw [getD_set_eq_if,
      if_pos ⟨rfl, by rw [holen]; exact and_hashmask_lt hv _⟩]
  · rw [getD_set_eq_if,
      if_pos ⟨rfl, by rw [hwf.1]; exact and_hashmask_lt hv _⟩]

theorem chainFind_cons_ne (K : List Nat) (it : Item) (c : Chain)
    (h : it.key ≠ K) : chainFind K (it :: c) = chainFind K c := by
  simp [chainFind, h]

theorem chainFind_eq_none (K : List Nat) :
    ∀ c : Chain, (∀ x ∈ c, x.key ≠ K) → chainFind K c = none
  | [], _ => rfl
  | it :: rest, h => by
    rw [chainFind_cons_ne K it rest (h it (by simp))]
    exact chainFind_eq_none K rest (fun x hx => h x (by simp [hx]))

theorem chainDelete_some_mem (k : List Nat) :
    ∀ c c', chainDelete k c = some c' → ∃ x ∈ c, x.key = k
  | [], c', h => by simp [chainDelete] at h
  | it :: rest, c', h => by
    by_cases hk : it.key = k
    · exact ⟨it, by simp, hk⟩
    · simp only [chainDelete, if_neg hk] at h
      cases hr : chainDelete k rest with
      | none => rw [hr] at h; simp at h
      | some r' =>
        rcases chainDelete_some_mem k rest r' hr with ⟨x, hx, hxk⟩
        exact ⟨x, by simp [hx], hxk⟩

theorem chainFind_of_chainDelete (K k : List Nat) (hne : k ≠ K) :
    ∀ c c', chainDelete k c = some c' → chainFind K c' = chainFind K c
  | [], c', h => by simp [chainDelete] at h
  | it :: rest, c', h => by
    by_cases hk : it.key = k
    · simp only [chainDelete, if_pos hk] at h
      cases h
      exact (chainFind_cons_ne K it rest (by rw [hk]; exact hne)).symm
    · simp only [chainDelete, if_neg hk] at h
      cases hr : chainDelete k rest with
      | none => rw [hr] at h; simp at h
      | some r' =>
        rw [hr] at h
        simp only [Option.map_some'] at h
        cases h
        by_cases hK : it.key = K
        · simp [chainFind, hK]
        · rw [chainFind_cons_ne K it _ hK, chainFind_cons_ne K it rest hK]
          exact chainFind_of_chainDelete K k hne rest r' hr

theorem find_insert_frame (K : List Nat) (H : Nat) (it' : Item) (hv' : Nat)
    (s : AssocState) (hne : it'.key ≠ K) :
    assoc_find K H (assoc_insert it' hv' s) = assoc_find K H s := by
  rw [insert_eq_setChain, find_eq_getChain, find_eq_getChain]
  rcases getChain_setChain_cases s H hv' (it' :: getChain s hv') with ⟨h1, h2⟩ | h1
  · rw [h1, chainFind_cons_ne _ _ _ hne, h2]
  · rw [h1]

theorem find_delete_frame (K : List Nat) (H : Nat) (k' : List Nat) (hv' : Nat)
    (s : AssocState) (hne : k' ≠ K) :
    assoc_find K H ((assoc_delete k' hv' s).getD s) = assoc_find K H s := by
  rw [delete_eq_setChain]
  cases hd : chainDelete k' (getChain s hv') with
  | none => rfl
  | some c' =>
    simp only [Option.map_some', Option.getD_some]
    rw [find_eq_getChain, find_eq_getChain]
    rcases getChain_setChain_cases s H hv' c' with ⟨h1, h2⟩ | h1
    · rw [h1, chainFind_of_chainDelete K k' hne _ _ hd, h2]
    · rw [h1]

theorem find_op_frame (K : List Nat) (H : Nat) (s : AssocState) (op : Op)
    (hop : opAvoids K op) :
    assoc_find K H (applyOp s op) = assoc_find K H s := by
  cases op with
  | ins it' hv' => exact find_insert_frame K H it' hv' s hop
  | del k' hv' => exact find_delete_frame K H k' hv' s hop

theorem find_fold_frame (K : List Nat) (H : Nat) (ops : List Op)
    (hops : ∀ op ∈ ops, opAvoids K op) :
    ∀ s, assoc_find K H (List.foldl applyOp s ops) = assoc_find K H s := by
  induction ops with
  | nil => intro s; rfl
  | cons op rest ih =>
    intro s
    rw [List.foldl_cons, ih (fun o ho => hops o (by simp [ho])),
      find_op_frame K H s op (hops op (by simp))]

/-- C3: round trip.  In any well-formed state: (1) after inserting an
entry with key `K` under hash `H`, and then any sequence of operations
that neither deletes nor inserts key `K`, `assoc_find(K, H)` returns that
same entry — the first match by exact key length and byte equality, which
is the freshly head-pushed entry; (2) provided the addressed chain holds
at most one entry with key `K` (the no-duplicate caller contract), after
`assoc_delete(K, H)` a find of `K` returns none (this also covers the
degenerate case where `K` was absent and the delete asserted). -/
theorem round_trip (s : AssocState) (it : Item) (K : List Nat) (H : Nat)
    (ops : List Op) (hk : it.key = K) (hwf : WFLen s)
    (hops : ∀ op ∈ ops, opAvoids K op)
    (huniq : (getChain s H).countP (fun x => decide (x.key = K)) ≤ 1) :
    assoc_find K H (List.foldl applyOp (assoc_insert it H s) ops) = some it
    ∧ assoc_find K H ((assoc_delete K H s).getD s) = none := by
  constructor
  · rw [find_fold_frame K H ops hops, insert_eq_setChain, find_eq_getChain,
      getChain_setChain_self _ _ _ hwf]
    simp [chainFind, hk]
  · rw [delete_eq_setChain]
    cases hd : chainDelete K (getChain s H) with
    | none =>
      -- K was absent: find already returns none
      show assoc_find K H s = none
      rw [find_eq_getChain]
      refine chainFind_eq_none K _ (fun x hx hxk => ?_)
      rcases chainDelete_splice K (getChain s H) ⟨x, hx, hxk⟩ with
        ⟨c₁, m, c₂, _, _, _, hsome⟩
      rw [hd] at hsome
      exact Option.noConfusion hsome
    | some c' =>
      show assoc_find K H (setChain s H c') = none
      rw [find_eq_getChain, getChain_setChain_self _ _ _ hwf]
      -- decompose the deleted chain and use the at-most-one-match bound
      have hpres : ∃ x ∈ getChain s H, x.key = K :=
        chainDelete_some_mem K (getChain s H) c' hd
      rcases chainDelete_splice K (getChain s H) hpres with
        ⟨c₁, m, c₂, hc, hnone, hm, hsome⟩
      rw [hd] at hsome
      cases hsome
      rw [hc, List.countP_append, List.countP_cons] at huniq
      simp [hm] at huniq
      refine chainFind_eq_none K _ (fun x hx hxk => ?_)
      rcases List.mem_append.mp hx with hx1 | hx2
      · exact hnone x hx1 hxk
      · -- a second match in c₂ would make the count at least 2
        have hx2' : 0 < c₂.countP (fun x => decide (x.key = K)) :=
          List.countP_pos_iff.mpr ⟨x, hx2, by simp [hxk]⟩
        omega

/-- Witness for `round_trip`: a stable one-bucket table already holding
key `[9]`, inserting key `[4]`, then inserting another `[9]`-keyed item,
then finding `[4]`; and deleting key `[4]` from the original table. -/
theorem round_trip_witness :
    assoc_find [4] 0
      (List.foldl applyOp
        (assoc_insert ⟨[4], 7⟩ 0 ⟨0, [[⟨[9], 3⟩]], none, false, 0⟩)
        [.ins ⟨[9], 8⟩ 0]) = some ⟨[4], 7⟩
    ∧ assoc_find [4] 0
        ((assoc_delete [4] 0 ⟨0, [[⟨[9], 3⟩]], none, false, 0⟩).getD
          ⟨0, [[⟨[9], 3⟩]], none, false, 0⟩) = none :=
  round_trip ⟨0, [[⟨[9], 3⟩]], none, false, 0⟩ ⟨[4], 7⟩ [4] 0 [.ins ⟨[9], 8⟩ 0]
    rfl ⟨by decide, by decide⟩
    (by intro op hop
        rcases List.mem_singleton.mp hop with rfl
        show ([9] : List Nat) ≠ [4]
        decide)
    (by decide)

/-! ### Iterator coverage (C7) -/

theorem getD_eq_head_drop {α : Type} :
    ∀ (l : List α) (b : Nat) (c : α) (rest : List α) (d : α),
      l.drop b = c :: rest → l.getD b d = c
  | [], b, c, rest, d, h => by simp at h
  | a :: t, 0, c, rest, d, h => by simpa using congrArg (fun x => x.headD d) h
  | a :: t, b + 1, c, rest, d, h => by
    simp only [List.drop_succ_cons] at h
    simpa using getD_eq_head_drop t b c rest d h

theorem getElem?_eq_head_drop {α : Type} :
    ∀ (l : List α) (b : Nat) (c : α) (rest : List α),
      l.drop b = c :: rest → l[b]? = some c
  | [], b, c, rest, h => by simp at h
  | a :: t, 0, c, rest, h => by
    simp only [List.drop_zero] at h
    cases h
    simp
  | a :: t, b + 1, c, rest, h => by
    simp only [List.drop_succ_cons] at h
    simpa using getElem?_eq_head_drop t b c rest h

/-- One unfolding of the iteration driver. -/
theorem runIter_succ (tbl : List Chain) (hp : Nat) (fuel : Nat)
    (iter : AssocIterator) :
    runIter tbl hp (fuel + 1) iter =
      match assoc_iterate tbl hp iter with
      | (iter', some it, true) => it :: runIter tbl hp fuel iter'
      | (iter', none, true) => runIter tbl hp fuel iter'
      | (_, _, false) => [] := rfl

theorem runIter_consume (tbl : List Chain) (hp : Nat) :
    ∀ (r : Chain) (b f : Nat),
      runIter tbl hp (r.length + 1 + f) ⟨b, r, true⟩ =
        r ++ runIter tbl hp f ⟨b + 1, [], false⟩
  | [], b, f => by
    have hf : ([] : Chain).length + 1 + f = f + 1 := by
      simp [Nat.add_comm]
    rw [hf]
    rfl
  | x :: xs, b, f => by
    have hfuel : (x :: xs).length + 1 + f = (xs.length + 1 + f) + 1 := by
      simp [Nat.add_comm, Nat.add_assoc, Nat.add_left_comm]
    rw [hfuel]
    show x :: runIter tbl hp (xs.length + 1 + f) ⟨b, xs, true⟩ =
      (x :: xs) ++ runIter tbl hp f ⟨b + 1, [], false⟩
    rw [runIter_consume tbl hp xs b f]
    rfl

theorem runIter_from (hp : Nat) (tbl : List Chain)
    (htbl : tbl.length = hashsize hp) :
    ∀ (suffix : List Chain) (b : Nat), tbl.drop b = suffix →
      runIter tbl hp (iterFuel suffix + 1) ⟨b, [], false⟩ = suffix.join
  | [], b, hdrop => by
    have hb : tbl.length ≤ b := List.drop_eq_nil_iff.mp hdrop
    show runIter tbl hp (0 + 1) ⟨b, [], false⟩ = []
    by_cases hbe : b = hashsize hp
    · -- the loop's exit: assoc_iterate returns false
      have hstep : assoc_iterate tbl hp ⟨b, [], false⟩ =
          (⟨b, [], false⟩, none, false) := by
        simp [assoc_iterate, hbe]
      rw [runIter_succ, hstep]
    · -- out-of-range bucket (never reached in a real run): empty chain
      have hget : tbl[b]? = none := List.getElem?_eq_none hb
      have hstep : assoc_iterate tbl hp ⟨b, [], false⟩ =
          (⟨b + 1, [], false⟩, none, true) := by
        simp [assoc_iterate, hbe, hget]
      rw [runIter_succ, hstep]
      rfl
  | c :: rest, b, hdrop => by
    have hblt : b < tbl.length := by
      by_contra hge
      rw [List.drop_eq_nil_of_le (Nat.le_of_not_lt hge)] at hdrop
      exact List.noConfusion hdrop
    have hbne : b ≠ hashsize hp := by rw [← htbl]; exact Nat.ne_of_lt hblt
    have hget : tbl[b]? = some c := getElem?_eq_head_drop tbl b c rest hdrop
    have hdrop' : tbl.drop (b + 1) = rest := by
      have h1 : tbl.drop (b + 1) = (tbl.drop b).drop 1 := by
        rw [List.drop_drop]
      rw [h1, hdrop]
      rfl
    cases c with
    | nil =>
      have hstep : assoc_iterate tbl hp ⟨b, [], false⟩ =
          (⟨b + 1, [], false⟩, none, true) := by
        simp [assoc_iterate, hbne, hget]
      have hfuel : iterFuel ([] :: rest) + 1 = (iterFuel rest + 1) + 1 := by
        simp [iterFuel, Nat.add_comm]
      rw [hfuel, runIter_succ, hstep]
      show runIter tbl hp (iterFuel rest + 1) ⟨b + 1, [], false⟩ =
        ([] :: rest).join
      rw [runIter_from hp tbl htbl rest (b + 1) hdrop']
      rfl
    | cons h t =>
      have hstep : assoc_iterate tbl hp ⟨b, [], false⟩ =
          (⟨b, t, true⟩, some h, true) := by
        simp [assoc_iterate, hbne, hget]
      have hfuel : iterFuel ((h :: t) :: rest) + 1 =
          ((t.length + 1 + (iterFuel rest + 1)) + 1) := by
        simp [iterFuel]
        omega
      rw [hfuel, runIter_succ, hstep]
      show h :: runIter tbl hp (t.length + 1 + (iterFuel rest + 1))
          ⟨b, t, true⟩ = ((h :: t) :: rest).join
      rw [runIter_consume tbl hp t b (iterFuel rest + 1),
        runIter_from hp tbl htbl rest (b + 1) hdrop']
      rfl

/-- C7: an iterator opened on a stable table (the zeroed cursor returned
by `assoc_get_iterator`) and driven to exhaustion emits exactly the
concatenation of the primary array's chains: every live entry exactly
once and nothing else, buckets in ascending index order and, within a
bucket, in chain order (head = most recently inserted).  Only the primary
array is read (`assoc_iterate` takes no other input). -/
theorem iterator_visits_all_entries_once (tbl : List Chain) (hp : Nat)
    (htbl : tbl.length = hashsize hp) :
    runIter tbl hp (iterFuel tbl + 1) ⟨0, [], false⟩ = tbl.join :=
  runIter_from hp tbl htbl tbl 0 rfl

/-- Witness for `iterator_visits_all_entries_once`: two buckets (hash
power 1), three items. -/
theorem iterator_visits_all_entries_once_witness :
    runIter [[⟨[1], 1⟩], [⟨[2], 2⟩, ⟨[3], 3⟩]] 1
      (iterFuel [[⟨[1], 1⟩], [⟨[2], 2⟩, ⟨[3], 3⟩]] + 1) ⟨0, [], false⟩ =
      [[⟨[1], 1⟩], [⟨[2], 2⟩, ⟨[3], 3⟩]].join :=
  iterator_visits_all_entries_once [[⟨[1], 1⟩], [⟨[2], 2⟩, ⟨[3], 3⟩]] 1
    (by decide)

/-! ### Migration and the full expansion cycle (C2) -/

theorem tableMS_cons (c : Chain) (t : List Chain) :
    tableMS (c :: t) = (c : Multiset Item) + tableMS t := by
  simp [tableMS]

theorem tableMS_set :
    ∀ (tbl : List Chain) (j : Nat) (x : Chain), j < tbl.length →
      tableMS (tbl.set j x) + (tbl.getD j [] : Multiset Item) =
        (x : Multiset Item) + tableMS tbl
  | [], j, x, h => absurd h (by simp)
  | c :: t, 0, x, h => by
    simp only [List.set_cons_zero, List.getD_cons_zero, tableMS_cons]
    rw [add_assoc, add_comm (tableMS t) (c : Multiset Item)]
  | c :: t, j + 1, x, h => by
    simp only [List.set_cons_succ, List.getD_cons_succ, tableMS_cons]
    rw [add_assoc, tableMS_set t j x (by simpa using Nat.lt_of_succ_lt_succ h)]
    rw [← add_assoc, add_comm (c : Multiset Item) (x : Multiset Item), add_assoc]

theorem tableMS_push (tbl : List Chain) (j : Nat) (a : Item)
    (h : j < tbl.length) :
    tableMS (tbl.set j (a :: tbl.getD j [])) = a ::ₘ tableMS tbl := by
  have h1 := tableMS_set tbl j (a :: tbl.getD j []) h
  rw [← Multiset.cons_coe] at h1
  have h2 : (a ::ₘ (tbl.getD j [] : Multiset Item)) + tableMS tbl =
      (a ::ₘ tableMS tbl) + (tbl.getD j [] : Multiset Item) := by
    rw [Multiset.cons_add, Multiset.cons_add, add_comm]
  rw [h2] at h1
  exact add_right_cancel h1

theorem tableMS_eq_zero :
    ∀ tbl : List Chain, (∀ j < tbl.length, tbl.getD j [] = []) → tableMS tbl = 0
  | [], _ => rfl
  | c :: t, h => by
    have hc : c = [] := h 0 (by simp)
    rw [tableMS_cons, hc,
      tableMS_eq_zero t (fun j hj => h (j + 1) (by simpa using hj))]
    rfl

theorem mem_tableMS :
    ∀ (tbl : List Chain) (x : Item), x ∈ tableMS tbl →
      ∃ j, j < tbl.length ∧ x ∈ tbl.getD j []
  | [], x, h => absurd h (by simp [tableMS])
  | c :: t, x, h => by
    rw [tableMS_cons, Multiset.mem_add] at h
    rcases h with h | h
    · exact ⟨0, by simp, by simpa using h⟩
    · rcases mem_tableMS t x h with ⟨j, hj, hmem⟩
      exact ⟨j + 1, by simpa using hj, by simpa using hmem⟩

theorem chain_le_tableMS :
    ∀ (tbl : List Chain) (j : Nat), j < tbl.length →
      (tbl.getD j [] : Multiset Item) ≤ tableMS tbl
  | [], j, h => absurd h (by simp)
  | c :: t, 0, h => by
    rw [tableMS_cons]
    simpa using Multiset.le_add_right (c : Multiset Item) (tableMS t)
  | c :: t, j + 1, h => by
    rw [tableMS_cons]
    refine le_trans (chain_le_tableMS t j (by simpa using h)) ?_
    simpa using Multiset.le_add_left (tableMS t) (c : Multiset Item)

theorem relink_cons (hashFn : List Nat → Nat) (hp : Nat) (a : Item)
    (rest : Chain) (tbl : List Chain) :
    relink hashFn hp (a :: rest) tbl =
      relink hashFn hp rest
        (tbl.set (hashFn a.key &&& hashmask hp)
          (a :: tbl.getD (hashFn a.key &&& hashmask hp) [])) := rfl

theorem relink_ms (hashFn : List Nat → Nat) (hp : Nat) :
    ∀ (chain : Chain) (tbl : List Chain), tbl.length = hashsize hp →
      tableMS (relink hashFn hp chain tbl) =
        (chain : Multiset Item) + tableMS tbl
  | [], tbl, h => by simp [relink]
  | a :: rest, tbl, h => by
    have hlt : hashFn a.key &&& hashmask hp < tbl.length := by
      rw [h]; exact and_hashmask_lt _ _
    rw [relink_cons,
      relink_ms hashFn hp rest _ (by rw [List.length_set]; exact h),
      tableMS_push tbl _ a hlt, ← Multiset.cons_coe, Multiset.cons_add,
      Multiset.add_cons]

theorem relink_getD (hashFn : List Nat → Nat) (hp : Nat) :
    ∀ (chain : Chain) (tbl : List Chain), tbl.length = hashsize hp → ∀ j,
      (relink hashFn hp chain tbl).getD j [] =
        (chain.filter (fun x => decide (dest hashFn hp x = j))).reverse
          ++ tbl.getD j []
  | [], tbl, h, j => by simp [relink]
  | a :: rest, tbl, h, j => by
    rw [relink_cons,
      relink_getD hashFn hp rest _ (by rw [List.length_set]; exact h) j]
    by_cases hj : dest hashFn hp a = j
    · have hj' : hashFn a.key &&& hashmask hp = j := hj
      rw [getD_set_eq_if,
        if_pos ⟨hj', by rw [h]; exact and_hashmask_lt _ _⟩, hj',
        List.filter_cons_of_pos (by simp [hj]), List.reverse_cons,
        List.append_assoc]
      rfl
    · rw [getD_set_eq_if, if_neg (fun hc => hj hc.1),
        List.filter_cons_of_neg (by simp [hj])]

theorem relink_placed (hashFn : List Nat → Nat) (hp : Nat) (chain : Chain)
    (tbl : List Chain) (hlen : tbl.length = hashsize hp)
    (hplaced : ∀ j, ∀ it ∈ tbl.getD j [], dest hashFn hp it = j) :
    ∀ j, ∀ it ∈ (relink hashFn hp chain tbl).getD j [],
      dest hashFn hp it = j := by
  intro j it hmem
  rw [relink_getD hashFn hp chain tbl hlen j] at hmem
  rcases List.mem_append.mp hmem with hm | hm
  · have := List.of_mem_filter (List.mem_reverse.mp hm)
    simpa using this
  · exact hplaced j it hm

theorem migrate_step_fields (hashFn : List Nat → Nat) (s : AssocState) :
    (migrate_step hashFn s).old_hashtable =
      some ((oldTab s).set s.expand_bucket [])
    ∧ (migrate_step hashFn s).expand_bucket = s.expand_bucket + 1
    ∧ (migrate_step hashFn s).hashpower = s.hashpower
    ∧ (migrate_step hashFn s).primary_hashtable =
        relink hashFn s.hashpower ((oldTab s).getD s.expand_bucket [])
          s.primary_hashtable := by
  by_cases hdone : s.expand_bucket + 1 = hashsize (s.hashpower - 1)
  · simp only [migrate_step]
    rw [if_pos hdone]
    exact ⟨rfl, rfl, rfl, rfl⟩
  · simp only [migrate_step]
    rw [if_neg hdone]
    exact ⟨rfl, rfl, rfl, rfl⟩

theorem migrate_step_cases (hashFn : List Nat → Nat) (s : AssocState)
    (inv : MigInv hashFn s) :
    (s.expand_bucket + 1 = hashsize (s.hashpower - 1) →
      StableOut hashFn
        (tableMS s.primary_hashtable + tableMS (oldTab s)) s.hashpower
        (migrate_step hashFn s))
    ∧ (s.expand_bucket + 1 ≠ hashsize (s.hashpower - 1) →
      MigInv hashFn (migrate_step hashFn s)
      ∧ (migrate_step hashFn s).hashpower = s.hashpower
      ∧ tableMS (migrate_step hashFn s).primary_hashtable
          + tableMS (oldTab (migrate_step hashFn s))
        = tableMS s.primary_hashtable + tableMS (oldTab s)) := by
  obtain ⟨hold, hcur, hhp, hpri⟩ := migrate_step_fields hashFn s
  have hcurlen : s.expand_bucket < (oldTab s).length := by
    rw [inv.olen]; exact inv.cur
  have holdtab : oldTab (migrate_step hashFn s) =
      (oldTab s).set s.expand_bucket [] := by
    unfold oldTab
    rw [hold]
    rfl
  have hmsold : tableMS ((oldTab s).set s.expand_bucket [])
      + ((oldTab s).getD s.expand_bucket [] : Multiset Item)
      = tableMS (oldTab s) := by
    have := tableMS_set (oldTab s) s.expand_bucket [] hcurlen
    simpa using this
  have hmspri : tableMS (migrate_step hashFn s).primary_hashtable =
      ((oldTab s).getD s.expand_bucket [] : Multiset Item)
        + tableMS s.primary_hashtable := by
    rw [hpri, relink_ms hashFn s.hashpower _ _ inv.plen]
  have hplen' : (migrate_step hashFn s).primary_hashtable.length =
      hashsize s.hashpower := by
    rw [hpri, relink_length]; exact inv.plen
  have hplaced' : ∀ j, ∀ it ∈ (migrate_step hashFn s).primary_hashtable.getD j [],
      dest hashFn s.hashpower it = j := by
    rw [hpri]
    exact relink_placed hashFn s.hashpower _ _ inv.plen inv.pri_placed
  have hclear' : ∀ j < s.expand_bucket + 1,
      (oldTab (migrate_step hashFn s)).getD j [] = [] := by
    intro j hj
    rw [holdtab, getD_set_eq_if]
    by_cases hje : s.expand_bucket = j
    · rw [if_pos ⟨hje, hje ▸ hcurlen⟩]
    · rw [if_neg (fun hc => hje hc.1)]
      exact inv.old_cleared j (by omega)
  constructor
  · intro hdone
    have hexp' : (migrate_step hashFn s).expanding = false := by
      unfold migrate_step
      rw [if_pos hdone]
    have hms0 : tableMS (oldTab (migrate_step hashFn s)) = 0 := by
      refine tableMS_eq_zero _ (fun j hj => ?_)
      refine hclear' j ?_
      rw [holdtab, List.length_set, inv.olen, ← hdone] at hj
      exact hj
    refine ⟨hexp', hhp, hhp ▸ hplen', hhp ▸ hplaced', ?_⟩
    have : tableMS ((oldTab s).set s.expand_bucket []) = 0 := by
      rw [← holdtab]; exact hms0
    rw [this] at hmsold
    rw [hmspri, ← hmsold]
    simp [add_comm]
  · intro hnext
    have hexp' : (migrate_step hashFn s).expanding = true := by
      unfold migrate_step
      rw [if_neg hnext]
      exact inv.exp
    have holen' : (oldTab (migrate_step hashFn s)).length =
        hashsize (s.hashpower - 1) := by
      rw [holdtab, List.length_set]; exact inv.olen
    refine ⟨⟨hexp', by rw [hhp]; exact hplen', by rw [hhp]; exact holen',
      by rw [hhp, hcur]; have hc := inv.cur; omega
      , by rw [hhp]; exact hplaced', by rw [hcur]; exact hclear'⟩, hhp, ?_⟩
    rw [hmspri, holdtab]
    calc ((oldTab s).getD s.expand_bucket [] : Multiset Item)
          + tableMS s.primary_hashtable
          + tableMS ((oldTab s).set s.expand_bucket [])
        = tableMS s.primary_hashtable
          + (tableMS ((oldTab s).set s.expand_bucket [])
            + ((oldTab s).getD s.expand_bucket [] : Multiset Item)) := by
          rw [add_comm (((oldTab s).getD s.expand_bucket [] : Multiset Item)) _,
            add_assoc, add_comm (((oldTab s).getD s.expand_bucket [] : Multiset Item)) _]
      _ = tableMS s.primary_hashtable + tableMS (oldTab s) := by rw [hmsold]

theorem migrate_run (hashFn : List Nat → Nat) :
    ∀ (k : Nat) (s : AssocState), MigInv hashFn s →
      hashsize (s.hashpower - 1) = s.expand_bucket + (k + 1) →
      StableOut hashFn (tableMS s.primary_hashtable + tableMS (oldTab s))
        s.hashpower (migrate hashFn (k + 1) s)
  | 0, s, inv, hsz => by
    have hdone : s.expand_bucket + 1 = hashsize (s.hashpower - 1) := by omega
    have hm : migrate hashFn 1 s = migrate_step hashFn s := by
      show (if s.expanding then migrate hashFn 0 (migrate_step hashFn s) else s)
        = migrate_step hashFn s
      rw [if_pos inv.exp]
      rfl
    rw [hm]
    exact (migrate_step_cases hashFn s inv).1 hdone
  | k + 1, s, inv, hsz => by
    have hnext : s.expand_bucket + 1 ≠ hashsize (s.hashpower - 1) := by omega
    obtain ⟨inv', hhp, hms⟩ := (migrate_step_cases hashFn s inv).2 hnext
    have hcur' : (migrate_step hashFn s).expand_bucket = s.expand_bucket + 1 :=
      (migrate_step_fields hashFn s).2.1
    have hsz' : hashsize ((migrate_step hashFn s).hashpower - 1) =
        (migrate_step hashFn s).expand_bucket + (k + 1) := by
      rw [hhp, hcur']; omega
    have hout := migrate_run hashFn k (migrate_step hashFn s) inv' hsz'
    rw [hms, hhp] at hout
    have hm : migrate hashFn (k + 1 + 1) s =
        migrate hashFn (k + 1) (migrate_step hashFn s) := by
      show (if s.expanding then migrate hashFn (k + 1) (migrate_step hashFn s)
        else s) = migrate hashFn (k + 1) (migrate_step hashFn s)
      rw [if_pos inv.exp]
    rw [hm]
    exact hout

theorem getD_replicate_nil (n j : Nat) :
    (List.replicate n ([] : Chain)).getD j [] = [] := by
  rw [List.getD_eq_getElem?_getD, List.getElem?_replicate]
  split <;> rfl

theorem tableMS_replicate (n : Nat) : tableMS (List.replicate n []) = 0 := by
  induction n with
  | zero => rfl
  | succ k ih =>
    rw [List.replicate_succ, tableMS_cons, ih]
    rfl

theorem insert_hashed_stable (hashFn : List Nat → Nat) (s : AssocState)
    (it : Item) (inv : StableInv hashFn s) :
    StableInv hashFn (assoc_insert it (hashFn it.key) s)
    ∧ (assoc_insert it (hashFn it.key) s).hashpower = s.hashpower
    ∧ tableMS (assoc_insert it (hashFn it.key) s).primary_hashtable
        = it ::ₘ tableMS s.primary_hashtable := by
  have hnot : ¬ (s.expanding = true ∧
      s.expand_bucket ≤ hashFn it.key &&& hashmask (s.hashpower - 1)) := by
    rintro ⟨h, _⟩
    rw [inv.exp] at h
    exact Bool.noConfusion h
  have hb : hashFn it.key &&& hashmask s.hashpower < s.primary_hashtable.length := by
    rw [inv.plen]; exact and_hashmask_lt _ _
  simp only [assoc_insert, if_neg hnot]
  refine ⟨⟨inv.exp, by rw [List.length_set]; exact inv.plen, ?_⟩, trivial, ?_⟩
  · intro j x hx
    rw [getD_set_eq_if] at hx
    by_cases hj : hashFn it.key &&& hashmask s.hashpower = j
    · rw [if_pos ⟨hj, hb⟩] at hx
      rcases List.mem_cons.mp hx with rfl | hx'
      · exact hj
      · exact inv.placed j x (hj ▸ hx')
    · rw [if_neg (fun hc => hj hc.1)] at hx
      exact inv.placed j x hx
  · exact tableMS_push s.primary_hashtable _ it hb

theorem fold_insert_stable (hashFn : List Nat → Nat) :
    ∀ (items : List Item) (s : AssocState), StableInv hashFn s →
      StableInv hashFn
        (List.foldl (fun t x => assoc_insert x (hashFn x.key) t) s items)
      ∧ (List.foldl (fun t x => assoc_insert x (hashFn x.key) t) s items).hashpower
          = s.hashpower
      ∧ tableMS (List.foldl (fun t x => assoc_insert x (hashFn x.key) t)
            s items).primary_hashtable
        = (items : Multiset Item) + tableMS s.primary_hashtable
  | [], s, inv => ⟨inv, rfl, by simp⟩
  | it :: rest, s, inv => by
    obtain ⟨inv1, hhp1, hms1⟩ := insert_hashed_stable hashFn s it inv
    obtain ⟨inv2, hhp2, hms2⟩ := fold_insert_stable hashFn rest _ inv1
    refine ⟨inv2, by rw [List.foldl_cons, hhp2, hhp1], ?_⟩
    rw [List.foldl_cons, hms2, hms1, ← Multiset.cons_coe, Multiset.add_cons,
      Multiset.cons_add]

theorem chainFind_mem_nodup (it : Item) :
    ∀ c : Chain, (c.map Item.key).Nodup → it ∈ c → chainFind it.key c = some it
  | [], _, hmem => absurd hmem (by simp)
  | a :: rest, hnd, hmem => by
    rcases List.mem_cons.mp hmem with rfl | hmem'
    · simp [chainFind]
    · have hrest : (rest.map Item.key).Nodup := by
        rw [List.map_cons] at hnd
        exact (List.nodup_cons.mp hnd).2
      have hne : a.key ≠ it.key := by
        intro he
        rw [List.map_cons] at hnd
        refine (List.nodup_cons.mp hnd).1 ?_
        rw [he]
        exact List.mem_map_of_mem Item.key hmem'
      rw [chainFind_cons_ne it.key a rest hne]
      exact chainFind_mem_nodup it rest hrest hmem'

/-- C2: (a) one migration step, on an expanding state whose migration
cursor is still inside the old array, relinks every entry of
`old[expand_bucket]` into the primary bucket of its key's hash under the
wider mask (per destination bucket: those entries, most-recently-relinked
first, pushed ahead of the bucket's previous chain), clears
`old[expand_bucket]`, and increments `expand_bucket`; (b) consequently a
full Stable-to-Expanding-to-Stable cycle over `items` with distinct keys
leaves `expanding` false with `hashpower` bumped by one, the primary
array holding exactly the multiset of the inserted entries, and every
inserted entry findable — reachable purely via the primary array. -/
theorem migration_step_and_full_cycle (hashFn : List Nat → Nat)
    (s : AssocState) (items : List Item) (hp dp : Nat)
    (hexp : s.expanding = true)
    (hplen : s.primary_hashtable.length = hashsize s.hashpower)
    (hcur : s.expand_bucket < (oldTab s).length)
    (hhp : hp ≠ 0)
    (hnodup : (items.map Item.key).Nodup) :
    ((migrate_step hashFn s).old_hashtable =
        some ((oldTab s).set s.expand_bucket [])
      ∧ (migrate_step hashFn s).expand_bucket = s.expand_bucket + 1
      ∧ ∀ j, (migrate_step hashFn s).primary_hashtable.getD j [] =
          (((oldTab s).getD s.expand_bucket []).filter
              (fun x => decide (dest hashFn s.hashpower x = j))).reverse
            ++ s.primary_hashtable.getD j [])
    ∧ ((fullCycle hashFn hp dp items).expanding = false
      ∧ (fullCycle hashFn hp dp items).hashpower = hp + 1
      ∧ tableMS (fullCycle hashFn hp dp items).primary_hashtable
          = (items : Multiset Item)
      ∧ ∀ it ∈ items,
          assoc_find it.key (hashFn it.key) (fullCycle hashFn hp dp items)
            = some it) := by
  obtain ⟨hold, hcur1, hhp1, hpri1⟩ := migrate_step_fields hashFn s
  constructor
  · refine ⟨hold, hcur1, fun j => ?_⟩
    rw [hpri1, relink_getD hashFn s.hashpower _ _ hplen j]
  · -- the full cycle
    have hinit : StableInv hashFn (assoc_init hp dp) := by
      refine ⟨rfl, ?_, ?_⟩
      · simp [assoc_init, hhp]
      · intro j x hx
        simp only [assoc_init, hhp, if_pos, ne_eq, if_neg] at hx
        rw [getD_replicate_nil] at hx
        exact absurd hx (by simp)
    obtain ⟨hbinv, hbhp, hbms⟩ := fold_insert_stable hashFn items _ hinit
    have hbhp' : (buildStable hashFn hp dp items).hashpower = hp := by
      rw [buildStable, hbhp]
      simp [assoc_init, hhp]
    have hbms' : tableMS (buildStable hashFn hp dp items).primary_hashtable
        = (items : Multiset Item) := by
      rw [buildStable, hbms]
      have : tableMS (assoc_init hp dp).primary_hashtable = 0 := by
        simp only [assoc_init]
        exact tableMS_replicate _
      rw [this, add_zero]
    -- the expanded state
    set s0 := buildStable hashFn hp dp items with hs0
    set s1 := assoc_expand true s0 with hs1
    have hs1hp : s1.hashpower = hp + 1 := by rw [hs1, assoc_expand, if_pos rfl, hbhp']
    have hs1fields : s1.primary_hashtable =
        List.replicate (hashsize (s0.hashpower + 1)) []
        ∧ oldTab s1 = s0.primary_hashtable
        ∧ s1.expand_bucket = 0 ∧ s1.expanding = true := by
      rw [hs1, assoc_expand, if_pos rfl]
      exact ⟨rfl, rfl, rfl, rfl⟩
    obtain ⟨hs1p, hs1o, hs1c, hs1e⟩ := hs1fields
    have hinv1 : MigInv hashFn s1 := by
      refine ⟨hs1e, ?_, ?_, ?_, ?_, ?_⟩
      · rw [hs1p, List.length_replicate, hs1hp, hbhp']
      · rw [hs1o, hs1hp]
        have hplen0 : s0.primary_hashtable.length = hashsize s0.hashpower :=
          hbinv.plen
        rw [hbhp'] at hplen0
        simpa using hplen0
      · rw [hs1c, hs1hp]
        simp [hashsize, Nat.pos_pow_of_pos]
      · intro j x hx
        rw [hs1p, getD_replicate_nil] at hx
        exact absurd hx (by simp)
      · intro j hj
        rw [hs1c] at hj
        exact absurd hj (by omega)
    have hms1 : tableMS s1.primary_hashtable + tableMS (oldTab s1)
        = (items : Multiset Item) := by
      rw [hs1p, hs1o, tableMS_replicate, hbms']
      rw [zero_add]
    have hsz : hashsize (s1.hashpower - 1) = s1.expand_bucket + ((hashsize hp - 1) + 1) := by
      rw [hs1hp, hs1c]
      have : 0 < hashsize hp := Nat.pos_pow_of_pos hp (by decide)
      simp only [Nat.add_sub_cancel]
      omega
    have hfuel : hashsize hp = (hashsize hp - 1) + 1 := by
      have : 0 < hashsize hp := Nat.pos_pow_of_pos hp (by decide)
      omega
    have hout : StableOut hashFn
        (tableMS s1.primary_hashtable + tableMS (oldTab s1)) s1.hashpower
        (migrate hashFn ((hashsize hp - 1) + 1) s1) :=
      migrate_run hashFn (hashsize hp - 1) s1 hinv1 hsz
    rw [hms1, hs1hp] at hout
    have hcyc : fullCycle hashFn hp dp items
        = migrate hashFn ((hashsize hp - 1) + 1) s1 := by
      rw [fullCycle, ← hs0, ← hs1, ← hfuel]
    rw [hcyc]
    refine ⟨hout.exp, hout.hp, hout.ms, ?_⟩
    -- every inserted entry is findable
    intro it hit
    set s2 := migrate hashFn ((hashsize hp - 1) + 1) s1 with hs2
    have hmem : it ∈ tableMS s2.primary_hashtable := by
      rw [hout.ms]
      simpa using hit
    obtain ⟨j, hj, hjmem⟩ := mem_tableMS _ _ hmem
    have hjd : dest hashFn (hp + 1) it = j := hout.placed j it hjmem
    rw [find_eq_getChain, getChain_not_expanding hout.exp]
    have hidx : hashFn it.key &&& hashmask s2.hashpower = j := by
      rw [hout.hp]
      exact hjd
    rw [hidx]
    -- keys in this chain are distinct, so the first match is `it`
    have hchle : ((s2.primary_hashtable.getD j [] : Multiset Item))
        ≤ tableMS s2.primary_hashtable := chain_le_tableMS _ j hj
    have hndchain : ((s2.primary_hashtable.getD j []).map Item.key).Nodup := by
      have hle : ((s2.primary_hashtable.getD j []).map Item.key : Multiset (List Nat))
          ≤ (tableMS s2.primary_hashtable).map Item.key := by
        simpa using Multiset.map_le_map hchle
      rw [hout.ms] at hle
      have hnd : ((items : Multiset Item).map Item.key).Nodup := by
        simpa using hnodup
      exact Multiset.coe_nodup.mp (Multiset.nodup_of_le hle hnd)
    exact chainFind_mem_nodup it _ hndchain hjmem

/-- Witness for `migration_step_and_full_cycle`: a concrete expanding
state (hash power 1, one un-migrated old bucket), and the full cycle over
two distinct keys starting from a two-bucket table, with the hash
function reading the first key byte. -/
theorem migration_step_and_full_cycle_witness :
    (migrate_step (fun k => k.headD 0)
        ⟨1, [[], []], some [[⟨[0], 5⟩]], true, 0⟩).expand_bucket = 0 + 1
    ∧ (fullCycle (fun k => k.headD 0) 1 16 [⟨[1], 10⟩, ⟨[2], 20⟩]).expanding
        = false
    ∧ (fullCycle (fun k => k.headD 0) 1 16 [⟨[1], 10⟩, ⟨[2], 20⟩]).hashpower
        = 1 + 1
    ∧ assoc_find [1] ((fun (k : List Nat) => k.headD 0) [1])
        (fullCycle (fun k => k.headD 0) 1 16 [⟨[1], 10⟩, ⟨[2], 20⟩])
        = some ⟨[1], 10⟩ := by
  have h := migration_step_and_full_cycle (fun k => k.headD 0)
    ⟨1, [[], []], some [[⟨[0], 5⟩]], true, 0⟩ [⟨[1], 10⟩, ⟨[2], 20⟩] 1 16
    rfl (by decide) (by decide) (by decide) (by decide)
  exact ⟨h.1.2.1, h.2.1, h.2.2.1, h.2.2.2.2 ⟨[1], 10⟩ (by decide)⟩

end Assoc
